import Mathlib

/-!
Shallow embedding of `aiocouchdb/replicator/worker.py` (class
`ReplicationWorker`): the changes-fetch loop, the missing-revision
computation and the worker identity, together with theorems settling
the specification claims about them.

Modelling conventions:
* A change event `{'id': ..., 'seq': ..., 'changes': [{'rev': ...}, ...]}`
  becomes a structure with a `String` document id, a `Nat` sequence (the
  feed order is total; `sorted(..., key=lambda i: i['seq'])` only uses the
  order) and the list of revision strings.
* Python's insertion-ordered `defaultdict(list)` becomes an association
  list from doc id to revision list, with unique keys in insertion order.
* `target.revs_diff` is an abstract peer capability: a function from the
  request to `Except String response`, `Except.error` standing for a raised
  transport error.
* The work queue interactions of the loop become an input list of queue
  results (`QItem.batch` / `QItem.closed`, the latter the `CLOSED`
  sentinel) and an output trace of emitted events; `reports_queue.put`
  emissions and the `revs_diff` call are recorded in order in the trace.
  `(False, seq)` marks a batch as started, `(True, seq)` as completed,
  exactly as the tuples put by the Python code.
* The loop is a total structural recursion over the queue-result list; an
  exhausted list with no `CLOSED` stands for the worker still blocked in
  `changes_queue.get` (`LoopOutcome.pending`).
-/

/-- One change event consumed from the changes queue:
`docinfo['id']`, `docinfo['seq']`, and the revisions
`[change['rev'] for change in docinfo['changes']]`. -/
structure ChangeEvent where
  id : String
  seq : Nat
  changes : List String
deriving DecidableEq, Repr

/-- The `docid_revs` mapping built by `find_missing_revs`: a Python
`defaultdict(list)`, embedded as an insertion-ordered association list. -/
abbrev RevSet := List (String × List String)

/-- Dictionary lookup in a `RevSet`, the absent key reading as `[]`
(`defaultdict(list)` semantics). -/
def lookupRevs : RevSet → String → List String
  | [], _ => []
  | (k, rs) :: rest, d => if k = d then rs else lookupRevs rest d

/-- `docid_revs[docid].append(rev)`: append `rev` to the entry of `d`,
creating the entry at the end of the key order if absent. -/
def appendRev : RevSet → String → String → RevSet
  | [], d, r => [(d, [r])]
  | (k, rs) :: rest, d, r =>
    if k = d then (k, rs ++ [r]) :: rest else (k, rs) :: appendRev rest d r

/-- State of the accumulation loop in `find_missing_revs`:
the `docid_revs` mapping and the `seen` set of `(docid, rev)` pairs. -/
abbrev RevAcc := RevSet × List (String × String)

/-- The body of the inner loop of `find_missing_revs` for one
`(docid, rev)` pair: skip if seen, else mark seen and append. -/
def revStep (st : RevAcc) (p : String × String) : RevAcc :=
  if p ∈ st.2 then st else (appendRev st.1 p.1 p.2, st.2 ++ [p])

/-- The accumulation loop of `find_missing_revs` over the batch
(`for docinfo in changes: for change in docinfo['changes']: ...`),
started from `docid_revs = defaultdict(list)` and `seen = set()`. -/
def find_docid_revs (changes : List ChangeEvent) : RevSet :=
  (changes.foldl
    (fun st ev => ev.changes.foldl (fun st rev => revStep st (ev.id, rev)) st)
    ([], [])).1

/-- One value of the `revs_diff` response mapping: the mandatory
`'missing'` list and the optional `'possible_ancestors'` list. -/
structure DiffContent where
  missing : List String
  possible_ancestors : Option (List String)
deriving DecidableEq, Repr

/-- The abstract `target.revs_diff` capability: one request carrying the
whole `docid_revs` mapping, answered by a response mapping or a raised
error. -/
abbrev RevsDiffFn := RevSet → Except String (List (String × DiffContent))

/-- `ReplicationWorker.find_missing_revs`: build `docid_revs` from the
batch, issue the single `revs_diff` call, and translate each response
entry to `(content['missing'], content.get('possible_ancestors', []))`.
A raised error of the call propagates. -/
def find_missing_revs (revs_diff : RevsDiffFn) (changes : List ChangeEvent) :
    Except String (List (String × (List String × List String))) :=
  match revs_diff (find_docid_revs changes) with
  | .error e => .error e
  | .ok resp =>
    .ok (resp.map (fun p => (p.1, (p.2.missing, p.2.possible_ancestors.getD []))))

/-- `sorted(changes, key=lambda i: i['seq'])`: Python's `sorted` is a
stable sort by the key, embedded as the stable insertion sort (any two
stable sorts by the same key agree). -/
def sortChanges (changes : List ChangeEvent) : List ChangeEvent :=
  List.insertionSort (fun a b => a.seq ≤ b.seq) changes

/-- `changes[-1]['seq']` of the sorted batch; `none` is the `IndexError`
case of the empty batch. -/
def reportSeqOf (changes : List ChangeEvent) : Option Nat :=
  ((sortChanges changes).getLast?).map ChangeEvent.seq

/-- An observable action of one loop iteration, in emission order:
`Ev.report done seq` is `reports_queue.put((done, seq))`
(`done = false` for started, `true` for completed), `Ev.diff req` is the
outbound `revs_diff` call. -/
inductive Ev where
  | report (done : Bool) (seq : Nat)
  | diff (req : RevSet)
deriving DecidableEq, Repr

/-- How one loop iteration can fail: `indexError` is `changes[-1]` on an
empty batch, `diffFailure e` a raised `revs_diff` error. -/
inductive WorkerFailure where
  | indexError
  | diffFailure (e : String)
deriving DecidableEq, Repr

/-- One result handed out by `changes_queue.get`: a batch of change
events or the `CLOSED` sentinel. -/
inductive QItem where
  | batch (changes : List ChangeEvent)
  | closed
deriving DecidableEq, Repr

/-- How the loop ends: normal break on `CLOSED`, a propagated failure, or
still blocked in `changes_queue.get` because the modelled queue input ran
out without closing. -/
inductive LoopOutcome where
  | closedNormally
  | failed (e : WorkerFailure)
  | pending
deriving DecidableEq, Repr

/-- One iteration body of `changes_fetch_loop` on a batch: sort, read the
report sequence off the last element, put `(False, report_seq)`, call
`find_missing_revs` on the sorted batch, and on success put
`(True, report_seq)`. Returns the emitted trace and the failure, if any. -/
def processBatch (rd : RevsDiffFn) (changes : List ChangeEvent) :
    List Ev × Option WorkerFailure :=
  match (sortChanges changes).getLast? with
  | none => ([], some .indexError)
  | some lastEv =>
    let report_seq := lastEv.seq
    let req := find_docid_revs (sortChanges changes)
    match find_missing_revs rd (sortChanges changes) with
    | .error e =>
      ([.report false report_seq, .diff req], some (.diffFailure e))
    | .ok _ =>
      ([.report false report_seq, .diff req, .report true report_seq], none)

/-- `ReplicationWorker.changes_fetch_loop`, driven by the list of results
the changes queue hands out: returns the full emission trace, the outcome,
and the queue results never asked for (those after the point the loop
stopped pulling). -/
def changes_fetch_loop (rd : RevsDiffFn) :
    List QItem → List Ev × LoopOutcome × List QItem
  | [] => ([], .pending, [])
  | .closed :: rest => ([], .closedNormally, rest)
  | .batch changes :: rest =>
    match processBatch rd changes with
    | (evs, some e) => (evs, .failed e, rest)
    | (evs, none) =>
      let r := changes_fetch_loop rd rest
      (evs ++ r.1, r.2.1, r.2.2)

/-- Hex digit of a nibble, lowercase, as `binascii.hexlify` produces. -/
def hexDigit (n : Nat) : Char :=
  if n < 10 then Char.ofNat (48 + n) else Char.ofNat (87 + n)

/-- `binascii.hexlify(bytes).decode()`: two lowercase hex digits per
byte, high nibble first. -/
def hexlify (bytes : List Nat) : String :=
  String.mk (bytes.flatMap (fun b => [hexDigit (b / 16), hexDigit (b % 16)]))

/-- Is `c` a lowercase hexadecimal digit? -/
def isHexDigit (c : Char) : Bool :=
  (decide ('0' ≤ c) && decide (c ≤ '9')) || (decide ('a' ≤ c) && decide (c ≤ 'f'))

/-- The state of a `ReplicationWorker` set in `__init__` that the claims
are about; `_id` is `binascii.hexlify(os.urandom(4)).decode()` and no
method ever reassigns a field. -/
structure ReplicationWorker where
  worker_id : String
  worker_rep_id : String
  batch_size : Nat
  max_conns : Nat
deriving DecidableEq, Repr

/-- `ReplicationWorker.__init__`, with the four bytes drawn from
`os.urandom(4)` passed in explicitly. -/
def ReplicationWorker.init (rep_id : String) (urandom4 : List Nat)
    (batch_size max_conns : Nat) : ReplicationWorker :=
  { worker_id := hexlify urandom4
    worker_rep_id := rep_id
    batch_size := batch_size
    max_conns := max_conns }

/-- The `id` property. -/
def ReplicationWorker.id (w : ReplicationWorker) : String := w.worker_id

/-- The `rep_id` property. -/
def ReplicationWorker.rep_id (w : ReplicationWorker) : String := w.worker_rep_id

/-- All `(docid, rev)` pairs of a batch, in traversal order of the nested
loop of `find_missing_revs`. -/
def pairsOf (changes : List ChangeEvent) : List (String × String) :=
  changes.flatMap (fun ev => ev.changes.map (fun r => (ev.id, r)))

/-- The second components of the pairs with first component `d`. -/
def revsOfPairs (d : String) (ps : List (String × String)) : List String :=
  ps.filterMap (fun p => if p.1 = d then some p.2 else none)

/-- The revisions reported for document `d` across a batch, in order. -/
def revsFor (d : String) (changes : List ChangeEvent) : List String :=
  revsOfPairs d (pairsOf changes)

/-- Keep the first occurrence of every element, dropping later
duplicates (expressed through `List.dedup`, which keeps last
occurrences, on the reversed list). -/
def firstSeenDedup (l : List String) : List String :=
  (l.reverse.dedup).reverse

/-- The pair loop of `find_missing_revs`, as a fold over the flattened
pair list. -/
def foldPairs (st : RevAcc) (ps : List (String × String)) : RevAcc :=
  ps.foldl revStep st

/-- Deduplicating accumulation: append each element not yet present. -/
def accDedup (acc : List String) (l : List String) : List String :=
  l.foldl (fun acc r => if r ∈ acc then acc else acc ++ [r]) acc

theorem lookupRevs_appendRev_same (a : RevSet) (d r : String) :
    lookupRevs (appendRev a d r) d = lookupRevs a d ++ [r] := by
  induction a with
  | nil => simp [appendRev, lookupRevs]
  | cons kv rest ih =>
    obtain ⟨k, rs⟩ := kv
    by_cases hk : k = d
    · subst hk
      simp [appendRev, lookupRevs]
    · simp [appendRev, lookupRevs, hk, ih]

theorem lookupRevs_appendRev_ne (a : RevSet) (d r k : String) (hk : k ≠ d) :
    lookupRevs (appendRev a d r) k = lookupRevs a k := by
  have hdk : ¬ d = k := fun h => hk h.symm
  induction a with
  | nil => simp [appendRev, lookupRevs, hdk]
  | cons kv rest ih =>
    obtain ⟨k', rs⟩ := kv
    by_cases hk' : k' = d
    · subst hk'
      simp [appendRev, lookupRevs, hdk]
    · simp [appendRev, lookupRevs, hk', ih]

theorem find_docid_revs_eq_foldPairs (cs : List ChangeEvent) :
    find_docid_revs cs = (foldPairs ([], []) (pairsOf cs)).1 := by
  have key : ∀ (cs : List ChangeEvent) (st : RevAcc),
      cs.foldl
        (fun st ev => ev.changes.foldl (fun st rev => revStep st (ev.id, rev)) st)
        st = foldPairs st (pairsOf cs) := by
    intro cs
    induction cs with
    | nil => intro st; simp [foldPairs, pairsOf]
    | cons ev rest ih =>
      intro st
      have inner : ev.changes.foldl (fun st rev => revStep st (ev.id, rev)) st
          = foldPairs st (ev.changes.map (fun r => (ev.id, r))) := by
        simp [foldPairs, List.foldl_map]
      simp only [List.foldl_cons, inner, ih, pairsOf, List.flatMap_cons, foldPairs,
        List.foldl_append]
  simp [find_docid_revs, key, pairsOf]

theorem mem_accDedup (acc l : List String) (x : String) :
    x ∈ accDedup acc l ↔ x ∈ acc ∨ x ∈ l := by
  induction l generalizing acc with
  | nil => simp [accDedup]
  | cons r rest ih =>
    have hstep : accDedup acc (r :: rest)
        = accDedup (if r ∈ acc then acc else acc ++ [r]) rest := by
      by_cases hr : r ∈ acc <;> simp [accDedup, hr]
    rw [hstep]
    by_cases hr : r ∈ acc
    · rw [if_pos hr, ih, List.mem_cons]
      constructor
      · tauto
      · rintro (h | rfl | h)
        · tauto
        · exact Or.inl hr
        · tauto
    · rw [if_neg hr, ih]
      simp only [List.mem_append, List.mem_singleton, List.mem_cons]
      tauto

theorem nodup_accDedup (acc l : List String) (h : acc.Nodup) :
    (accDedup acc l).Nodup := by
  induction l generalizing acc with
  | nil => exact h
  | cons r rest ih =>
    by_cases hr : r ∈ acc
    · simp only [accDedup, List.foldl_cons, if_pos hr]
      exact ih acc h
    · simp only [accDedup, List.foldl_cons, if_neg hr]
      exact ih (acc ++ [r]) (by simp [List.nodup_append, h, hr])

theorem accDedup_nil_eq_firstSeenDedup (l : List String) :
    accDedup [] l = firstSeenDedup l := by
  suffices h : ∀ l : List String, (accDedup [] l).reverse = l.reverse.dedup by
    have := congrArg List.reverse (h l)
    simpa [firstSeenDedup] using this
  intro l
  induction l using List.reverseRecOn with
  | nil => simp [accDedup, firstSeenDedup]
  | append_singleton t x ih =>
    have step : accDedup [] (t ++ [x])
        = if x ∈ accDedup [] t then accDedup [] t else accDedup [] t ++ [x] := by
      simp [accDedup, List.foldl_append]
    by_cases hx : x ∈ t
    · have hx' : x ∈ accDedup [] t := by
        rw [mem_accDedup]; exact Or.inr hx
      rw [step, if_pos hx', ih]
      simp [List.dedup_cons_of_mem, hx]
    · have hx' : x ∉ accDedup [] t := by
        rw [mem_accDedup]; simp [hx]
      rw [step, if_neg hx']
      simp [ih, List.dedup_cons_of_not_mem, hx]

theorem foldPairs_lookup (ps : List (String × String)) :
    ∀ a s, (∀ d r, ((d, r) ∈ s ↔ r ∈ lookupRevs a d)) →
      (∀ d r, ((d, r) ∈ (foldPairs (a, s) ps).2
          ↔ r ∈ lookupRevs (foldPairs (a, s) ps).1 d)) ∧
      (∀ d, lookupRevs (foldPairs (a, s) ps).1 d
          = accDedup (lookupRevs a d) (revsOfPairs d ps)) := by
  induction ps with
  | nil =>
    intro a s hinv
    exact ⟨hinv, fun d => rfl⟩
  | cons p rest ih =>
    intro a s hinv
    obtain ⟨pd, pr⟩ := p
    have hfold : foldPairs (a, s) ((pd, pr) :: rest)
        = foldPairs (revStep (a, s) (pd, pr)) rest := rfl
    by_cases hp : (pd, pr) ∈ s
    · have hstep : revStep (a, s) (pd, pr) = (a, s) := by
        simp [revStep, hp]
      rw [hfold, hstep]
      obtain ⟨h1, h2⟩ := ih a s hinv
      refine ⟨h1, fun d => ?_⟩
      rw [h2 d]
      by_cases hd : pd = d
      · subst hd
        have hmem : pr ∈ lookupRevs a pd := (hinv pd pr).1 hp
        have hrp : revsOfPairs pd ((pd, pr) :: rest) = pr :: revsOfPairs pd rest := by
          simp [revsOfPairs]
        rw [hrp]
        simp [accDedup, hmem]
      · have hrp : revsOfPairs d ((pd, pr) :: rest) = revsOfPairs d rest := by
          simp [revsOfPairs, hd]
        rw [hrp]
    · have hstep : revStep (a, s) (pd, pr) = (appendRev a pd pr, s ++ [(pd, pr)]) := by
        simp [revStep, hp]
      have hinv' : ∀ d r,
          ((d, r) ∈ s ++ [(pd, pr)] ↔ r ∈ lookupRevs (appendRev a pd pr) d) := by
        intro d r
        by_cases hd : d = pd
        · subst hd
          rw [lookupRevs_appendRev_same]
          have h := hinv d r
          simp only [List.mem_append, List.mem_singleton, Prod.mk.injEq]
          tauto
        · rw [lookupRevs_appendRev_ne a pd pr d hd]
          have h := hinv d r
          simp only [List.mem_append, List.mem_singleton, Prod.mk.injEq]
          tauto
      rw [hfold, hstep]
      obtain ⟨h1, h2⟩ := ih (appendRev a pd pr) (s ++ [(pd, pr)]) hinv'
      refine ⟨h1, fun d => ?_⟩
      rw [h2 d]
      by_cases hd : pd = d
      · subst hd
        have hnm : pr ∉ lookupRevs a pd := fun hm => hp ((hinv pd pr).2 hm)
        have hrp : revsOfPairs pd ((pd, pr) :: rest) = pr :: revsOfPairs pd rest := by
          simp [revsOfPairs]
        rw [hrp, lookupRevs_appendRev_same]
        simp [accDedup, hnm]
      · have hrp : revsOfPairs d ((pd, pr) :: rest) = revsOfPairs d rest := by
          simp [revsOfPairs, hd]
        rw [hrp, lookupRevs_appendRev_ne a pd pr d (fun h => hd h.symm)]

theorem lookupRevs_find_docid_revs (cs : List ChangeEvent) (d : String) :
    lookupRevs (find_docid_revs cs) d = firstSeenDedup (revsFor d cs) := by
  rw [find_docid_revs_eq_foldPairs]
  have h := (foldPairs_lookup (pairsOf cs) [] []
    (by intro d r; simp [lookupRevs])).2 d
  rw [h]
  rw [show lookupRevs [] d = [] from rfl, accDedup_nil_eq_firstSeenDedup]
  rfl

theorem mem_lookupRevs_find_docid_revs (cs : List ChangeEvent) (d r : String) :
    r ∈ lookupRevs (find_docid_revs cs) d ↔ (d, r) ∈ pairsOf cs := by
  rw [lookupRevs_find_docid_revs]
  unfold firstSeenDedup
  rw [List.mem_reverse, List.mem_dedup, List.mem_reverse]
  unfold revsFor revsOfPairs
  simp only [List.mem_filterMap]
  constructor
  · rintro ⟨⟨pd, pr⟩, hmem, hf⟩
    by_cases hd : pd = d
    · subst hd
      simp at hf
      subst hf
      exact hmem
    · simp [hd] at hf
  · intro h
    exact ⟨(d, r), h, by simp⟩

theorem nodup_lookupRevs_find_docid_revs (cs : List ChangeEvent) (d : String) :
    (lookupRevs (find_docid_revs cs) d).Nodup := by
  rw [lookupRevs_find_docid_revs]
  unfold firstSeenDedup
  exact List.nodup_reverse.2 (List.nodup_dedup _)

theorem sortChanges_perm (cs : List ChangeEvent) : (sortChanges cs).Perm cs := by
  unfold sortChanges
  exact List.perm_insertionSort _ cs

theorem sortChanges_ne_nil (cs : List ChangeEvent) (h : cs ≠ []) :
    sortChanges cs ≠ [] := by
  intro hnil
  apply h
  have h1 := (sortChanges_perm cs).length_eq
  rw [hnil] at h1
  exact List.length_eq_zero.1 h1.symm

theorem sortChanges_sorted (cs : List ChangeEvent) :
    List.Pairwise (fun a b : ChangeEvent => a.seq ≤ b.seq) (sortChanges cs) := by
  have ht : IsTotal ChangeEvent (fun a b : ChangeEvent => a.seq ≤ b.seq) :=
    ⟨fun a b => Nat.le_total a.seq b.seq⟩
  have htr : IsTrans ChangeEvent (fun a b : ChangeEvent => a.seq ≤ b.seq) :=
    ⟨fun a b c hab hbc => Nat.le_trans hab hbc⟩
  exact @List.sorted_insertionSort ChangeEvent (fun a b => a.seq ≤ b.seq)
    (fun a b => Nat.decLe a.seq b.seq) ht htr cs

theorem pairwise_le_getLast {α : Type} (f : α → Nat) :
    ∀ (l : List α), List.Pairwise (fun a b => f a ≤ f b) l →
      ∀ (hne : l ≠ []) (x), x ∈ l → f x ≤ f (l.getLast hne) := by
  intro l
  induction l with
  | nil => intro _ hne; cases hne rfl
  | cons a t ih =>
    intro h hne x hx
    cases t with
    | nil =>
      rcases List.mem_singleton.1 hx with rfl
      exact Nat.le_refl _
    | cons b t' =>
      rw [List.getLast_cons (by simp)]
      rcases List.mem_cons.1 hx with rfl | hx'
      · exact (List.pairwise_cons.1 h).1 _ (List.getLast_mem _)
      · exact ih (List.pairwise_cons.1 h).2 (by simp) x hx'

theorem processBatch_nil (rd : RevsDiffFn) :
    processBatch rd [] = ([], some .indexError) := by
  unfold processBatch
  simp [sortChanges]

theorem processBatch_ok_eq (rd : RevsDiffFn) (cs : List ChangeEvent)
    (resp : List (String × DiffContent)) (hne : cs ≠ [])
    (hok : rd (find_docid_revs (sortChanges cs)) = .ok resp)
    (s : Nat) (hs : reportSeqOf cs = some s) :
    processBatch rd cs
      = ([.report false s, .diff (find_docid_revs (sortChanges cs)),
          .report true s], none) := by
  have hne' := sortChanges_ne_nil cs hne
  have hlast := List.getLast?_eq_getLast_of_ne_nil hne'
  unfold reportSeqOf at hs
  rw [hlast] at hs
  simp only [Option.map_some'] at hs
  injection hs with hs
  unfold processBatch find_missing_revs
  rw [hlast, hok]
  simp [hs]

theorem processBatch_err_eq (rd : RevsDiffFn) (cs : List ChangeEvent)
    (e : String) (hne : cs ≠ [])
    (herr : rd (find_docid_revs (sortChanges cs)) = .error e)
    (s : Nat) (hs : reportSeqOf cs = some s) :
    processBatch rd cs
      = ([.report false s, .diff (find_docid_revs (sortChanges cs))],
          some (.diffFailure e)) := by
  have hne' := sortChanges_ne_nil cs hne
  have hlast := List.getLast?_eq_getLast_of_ne_nil hne'
  unfold reportSeqOf at hs
  rw [hlast] at hs
  simp only [Option.map_some'] at hs
  injection hs with hs
  unfold processBatch find_missing_revs
  rw [hlast, herr]
  simp [hs]

theorem reportSeqOf_isSome (cs : List ChangeEvent) (hne : cs ≠ []) :
    ∃ s, reportSeqOf cs = some s := by
  have hne' := sortChanges_ne_nil cs hne
  refine ⟨((sortChanges cs).getLast hne').seq, ?_⟩
  unfold reportSeqOf
  rw [List.getLast?_eq_getLast_of_ne_nil hne']
  rfl

theorem changes_fetch_loop_nil (rd : RevsDiffFn) :
    changes_fetch_loop rd [] = ([], .pending, []) := rfl

theorem changes_fetch_loop_cons_closed (rd : RevsDiffFn) (rest : List QItem) :
    changes_fetch_loop rd (QItem.closed :: rest)
      = ([], .closedNormally, rest) := rfl

theorem changes_fetch_loop_cons_eq (rd : RevsDiffFn) (cs : List ChangeEvent)
    (rest : List QItem) :
    changes_fetch_loop rd (QItem.batch cs :: rest)
      = match processBatch rd cs with
        | (evs, some e) => (evs, .failed e, rest)
        | (evs, none) =>
          (evs ++ (changes_fetch_loop rd rest).1,
            (changes_fetch_loop rd rest).2.1,
            (changes_fetch_loop rd rest).2.2) := rfl

theorem changes_fetch_loop_cons_ok (rd : RevsDiffFn) (cs : List ChangeEvent)
    (rest : List QItem) (evs : List Ev) (h : processBatch rd cs = (evs, none)) :
    changes_fetch_loop rd (QItem.batch cs :: rest)
      = (evs ++ (changes_fetch_loop rd rest).1,
          (changes_fetch_loop rd rest).2.1, (changes_fetch_loop rd rest).2.2) := by
  rw [changes_fetch_loop_cons_eq, h]

theorem changes_fetch_loop_cons_err (rd : RevsDiffFn) (cs : List ChangeEvent)
    (rest : List QItem) (evs : List Ev) (e : WorkerFailure)
    (h : processBatch rd cs = (evs, some e)) :
    changes_fetch_loop rd (QItem.batch cs :: rest) = (evs, .failed e, rest) := by
  rw [changes_fetch_loop_cons_eq, h]

/-- C1: for every non-empty batch whose revision-diff call succeeds, the
iteration's emission trace is exactly the started signal
`(False, reportSequence)`, then the revision-diff call, then the
completed signal `(True, reportSequence)`: one `Started` and one
`Completed` per batch cycle, `Started` strictly before the call,
`Completed` strictly after it returns, and never a `Completed` without
its preceding `Started`. -/
theorem processBatch_signal_order (rd : RevsDiffFn) (cs : List ChangeEvent)
    (resp : List (String × DiffContent)) (hne : cs ≠ [])
    (hok : rd (find_docid_revs (sortChanges cs)) = .ok resp) :
    ∃ s, reportSeqOf cs = some s ∧
      processBatch rd cs
        = ([.report false s, .diff (find_docid_revs (sortChanges cs)),
            .report true s], none) := by
  obtain ⟨s, hs⟩ := reportSeqOf_isSome cs hne
  exact ⟨s, hs, processBatch_ok_eq rd cs resp hne hok s hs⟩

theorem processBatch_signal_order_witness :
    ∃ s, reportSeqOf
        [⟨"a", 5, ["1-x"]⟩, ⟨"a", 7, ["1-x", "2-y"]⟩, ⟨"b", 6, ["1-z"]⟩]
        = some s ∧
      processBatch (fun _ => Except.ok [])
          [⟨"a", 5, ["1-x"]⟩, ⟨"a", 7, ["1-x", "2-y"]⟩, ⟨"b", 6, ["1-z"]⟩]
        = ([.report false s,
            .diff (find_docid_revs (sortChanges
              [⟨"a", 5, ["1-x"]⟩, ⟨"a", 7, ["1-x", "2-y"]⟩, ⟨"b", 6, ["1-z"]⟩])),
            .report true s], none) :=
  processBatch_signal_order (fun _ => Except.ok [])
    [⟨"a", 5, ["1-x"]⟩, ⟨"a", 7, ["1-x", "2-y"]⟩, ⟨"b", 6, ["1-z"]⟩]
    [] (by decide) rfl

/-- C2: if the revision-diff call of a non-empty batch raises, the loop
emits no `(True, seq)` completed signal at all for that batch, stops with
the propagated failure instead of continuing, and never pulls the
remaining queue results. -/
theorem changes_fetch_loop_no_false_completion (rd : RevsDiffFn)
    (cs : List ChangeEvent) (rest : List QItem) (e : String) (hne : cs ≠ [])
    (herr : rd (find_docid_revs (sortChanges cs)) = .error e) :
    (∀ s, Ev.report true s ∉ (changes_fetch_loop rd (QItem.batch cs :: rest)).1) ∧
    (changes_fetch_loop rd (QItem.batch cs :: rest)).2.1
      = .failed (.diffFailure e) ∧
    (changes_fetch_loop rd (QItem.batch cs :: rest)).2.2 = rest := by
  obtain ⟨s, hs⟩ := reportSeqOf_isSome cs hne
  have hpb := processBatch_err_eq rd cs e hne herr s hs
  have hloop : changes_fetch_loop rd (QItem.batch cs :: rest)
      = ([.report false s, .diff (find_docid_revs (sortChanges cs))],
          .failed (.diffFailure e), rest) :=
    changes_fetch_loop_cons_err rd cs rest _ _ hpb
  rw [hloop]
  refine ⟨?_, rfl, rfl⟩
  intro s'
  simp

theorem changes_fetch_loop_no_false_completion_witness :
    (∀ s, Ev.report true s ∉
      (changes_fetch_loop (fun _ => Except.error "boom")
        [QItem.batch [⟨"a", 5, ["1-x"]⟩], QItem.closed]).1) ∧
    (changes_fetch_loop (fun _ => Except.error "boom")
      [QItem.batch [⟨"a", 5, ["1-x"]⟩], QItem.closed]).2.1
      = .failed (.diffFailure "boom") ∧
    (changes_fetch_loop (fun _ => Except.error "boom")
      [QItem.batch [⟨"a", 5, ["1-x"]⟩], QItem.closed]).2.2 = [QItem.closed] :=
  changes_fetch_loop_no_false_completion (fun _ => Except.error "boom")
    [⟨"a", 5, ["1-x"]⟩] [QItem.closed] "boom" (by decide) rfl

/-- C3: the report sequence of a batch is the maximum of its events'
sequence values under the feed's total order, whatever the arrival
order; for the empty batch both sides are `none`. -/
theorem reportSeqOf_eq_max (cs : List ChangeEvent) :
    reportSeqOf cs = (cs.map ChangeEvent.seq).max? := by
  by_cases h : cs = []
  · subst h
    simp [reportSeqOf, sortChanges]
  · have hne' := sortChanges_ne_nil cs h
    unfold reportSeqOf
    rw [List.getLast?_eq_getLast_of_ne_nil hne']
    simp only [Option.map_some']
    symm
    rw [List.max?_eq_some_iff (fun a => Nat.le_refl a) (fun a b => max_choice a b)
      (fun a b c => Nat.max_le)]
    constructor
    · exact List.mem_map_of_mem _ ((sortChanges_perm cs).subset (List.getLast_mem hne'))
    · intro b hb
      obtain ⟨ev, hev, rfl⟩ := List.mem_map.1 hb
      have hev' : ev ∈ sortChanges cs := ((sortChanges_perm cs).mem_iff).2 hev
      exact pairwise_le_getLast ChangeEvent.seq (sortChanges cs)
        (sortChanges_sorted cs) hne' ev hev'

/-- C5: with every batch before the `CLOSED` signal processed
successfully, the loop terminates normally exactly at `CLOSED`: the
outcome is the normal one, the queue results after `CLOSED` are never
pulled, no signal is emitted past the closing point, and (last conjunct)
normal termination only ever arises from a consumed `CLOSED` signal.
Termination in a bounded number of iterations is inherent: the loop is a
total structural recursion on the queue results. -/
theorem changes_fetch_loop_termination (rd : RevsDiffFn) (pre post : List QItem)
    (hpre : ∀ i ∈ pre, ∃ cs, i = QItem.batch cs ∧ (processBatch rd cs).2 = none) :
    (changes_fetch_loop rd (pre ++ QItem.closed :: post)).2.1 = .closedNormally ∧
    (changes_fetch_loop rd (pre ++ QItem.closed :: post)).2.2 = post ∧
    (changes_fetch_loop rd (pre ++ QItem.closed :: post)).1
      = (changes_fetch_loop rd (pre ++ [QItem.closed])).1 ∧
    ∀ q : List QItem,
      (changes_fetch_loop rd q).2.1 = .closedNormally → QItem.closed ∈ q := by
  have main : ∀ pre : List QItem,
      (∀ i ∈ pre, ∃ cs, i = QItem.batch cs ∧ (processBatch rd cs).2 = none) →
      (changes_fetch_loop rd (pre ++ QItem.closed :: post)).2.1 = .closedNormally ∧
      (changes_fetch_loop rd (pre ++ QItem.closed :: post)).2.2 = post ∧
      (changes_fetch_loop rd (pre ++ QItem.closed :: post)).1
        = (changes_fetch_loop rd (pre ++ [QItem.closed])).1 := by
    intro pre
    induction pre with
    | nil =>
      intro _
      simp [changes_fetch_loop_cons_closed]
    | cons i pre' ih =>
      intro hpre'
      obtain ⟨cs, rfl, hok⟩ := hpre' i (List.mem_cons_self i pre')
      have hpb : processBatch rd cs = ((processBatch rd cs).1, none) := by
        rw [← hok]
      have ih' := ih (fun j hj => hpre' j (List.mem_cons_of_mem _ hj))
      rw [List.cons_append, List.cons_append,
        changes_fetch_loop_cons_ok rd cs _ _ hpb,
        changes_fetch_loop_cons_ok rd cs _ _ hpb]
      exact ⟨ih'.1, ih'.2.1, by rw [ih'.2.2]⟩
  have closedMem : ∀ q : List QItem,
      (changes_fetch_loop rd q).2.1 = .closedNormally → QItem.closed ∈ q := by
    intro q
    induction q with
    | nil =>
      intro h
      rw [changes_fetch_loop_nil] at h
      cases h
    | cons i rest ih =>
      intro h
      cases i with
      | closed => exact List.mem_cons_self _ _
      | batch cs =>
        rcases hpb : processBatch rd cs with ⟨evs, o⟩
        cases o with
        | none =>
          have hrest : (changes_fetch_loop rd rest).2.1 = .closedNormally := by
            rw [changes_fetch_loop_cons_ok rd cs rest evs hpb] at h
            exact h
          exact List.mem_cons_of_mem _ (ih hrest)
        | some e =>
          rw [changes_fetch_loop_cons_err rd cs rest evs e hpb] at h
          cases h
  exact ⟨(main pre hpre).1, (main pre hpre).2.1, (main pre hpre).2.2, closedMem⟩

theorem changes_fetch_loop_termination_witness :
    (changes_fetch_loop (fun _ => Except.ok [])
      ([QItem.batch [⟨"a", 1, ["1-x"]⟩]] ++ QItem.closed :: [QItem.batch []])).2.1
      = .closedNormally ∧
    (changes_fetch_loop (fun _ => Except.ok [])
      ([QItem.batch [⟨"a", 1, ["1-x"]⟩]] ++ QItem.closed :: [QItem.batch []])).2.2
      = [QItem.batch []] ∧
    (changes_fetch_loop (fun _ => Except.ok [])
      ([QItem.batch [⟨"a", 1, ["1-x"]⟩]] ++ QItem.closed :: [QItem.batch []])).1
      = (changes_fetch_loop (fun _ => Except.ok [])
          ([QItem.batch [⟨"a", 1, ["1-x"]⟩]] ++ [QItem.closed])).1 ∧
    ∀ q : List QItem,
      (changes_fetch_loop (fun _ => Except.ok []) q).2.1 = .closedNormally →
        QItem.closed ∈ q :=
  changes_fetch_loop_termination (fun _ => Except.ok [])
    [QItem.batch [⟨"a", 1, ["1-x"]⟩]] [QItem.batch []]
    (by
      intro i hi
      rw [List.mem_singleton] at hi
      exact ⟨[⟨"a", 1, ["1-x"]⟩], hi, by decide⟩)

/-- C6 counterexample: on an empty batch the iteration does not complete
without error: `changes[-1]` fails, the loop stops with the index-error
failure (the no-signal half of the claim does hold: the trace is empty),
so the claimed error-free no-op iteration is refuted. -/
theorem changes_fetch_loop_empty_batch_cex :
    changes_fetch_loop (fun _ => Except.ok []) [QItem.batch []]
      = ([], .failed .indexError, []) := by
  rfl

/-- C6 amended: an empty batch is not a silent no-op iteration: the
iteration raises the index error of `changes[-1]` before emitting any
`Started` or `Completed` signal, and the loop aborts with that failure,
pulling nothing further from the queue. -/
theorem changes_fetch_loop_empty_batch (rd : RevsDiffFn) (rest : List QItem) :
    changes_fetch_loop rd (QItem.batch [] :: rest)
      = ([], .failed .indexError, rest) :=
  changes_fetch_loop_cons_err rd [] rest [] .indexError (processBatch_nil rd)

/-- C4: a `(docId, revision)` pair occurring at least once in a batch
appears exactly once in the `docid_revs` mapping built from it, and the
revision list of each doc id is the batch's revisions for that doc in
first-seen order with later duplicates silently dropped; the mapping is
a function of this one batch alone (the seen set is created fresh in
each call). -/
theorem find_docid_revs_dedup (cs : List ChangeEvent) (d r : String)
    (hocc : (d, r) ∈ pairsOf cs) :
    (lookupRevs (find_docid_revs cs) d).count r = 1 ∧
    lookupRevs (find_docid_revs cs) d = firstSeenDedup (revsFor d cs) := by
  refine ⟨?_, lookupRevs_find_docid_revs cs d⟩
  exact List.count_eq_one_of_mem (nodup_lookupRevs_find_docid_revs cs d)
    ((mem_lookupRevs_find_docid_revs cs d r).2 hocc)

theorem find_docid_revs_dedup_witness :
    ((lookupRevs (find_docid_revs
        [⟨"a", 5, ["1-x"]⟩, ⟨"a", 7, ["1-x", "2-y"]⟩]) "a").count "1-x" = 1) ∧
    lookupRevs (find_docid_revs [⟨"a", 5, ["1-x"]⟩, ⟨"a", 7, ["1-x", "2-y"]⟩]) "a"
      = firstSeenDedup (revsFor "a" [⟨"a", 5, ["1-x"]⟩, ⟨"a", 7, ["1-x", "2-y"]⟩]) :=
  find_docid_revs_dedup [⟨"a", 5, ["1-x"]⟩, ⟨"a", 7, ["1-x", "2-y"]⟩] "a" "1-x"
    (by decide)

/-- C7: when the revision-diff call answers, `find_missing_revs` returns
exactly one result entry per response entry, in response order, with
`missing` taken verbatim and `possibleAncestors` taken verbatim or
defaulted to the empty sequence when absent. -/
theorem find_missing_revs_verbatim (rd : RevsDiffFn) (cs : List ChangeEvent)
    (resp : List (String × DiffContent))
    (hok : rd (find_docid_revs cs) = .ok resp) :
    find_missing_revs rd cs
      = .ok (resp.map
          (fun p => (p.1, (p.2.missing, p.2.possible_ancestors.getD [])))) := by
  unfold find_missing_revs
  rw [hok]

theorem find_missing_revs_verbatim_witness :
    find_missing_revs
        (fun _ => Except.ok [("a", ⟨["2-y"], none⟩), ("b", ⟨[], some ["1-z"]⟩)])
        [⟨"a", 5, ["1-x"]⟩, ⟨"a", 7, ["1-x", "2-y"]⟩, ⟨"b", 6, ["1-z"]⟩]
      = .ok [("a", (["2-y"], [])), ("b", ([], ["1-z"]))] :=
  (find_missing_revs_verbatim
    (fun _ => Except.ok [("a", ⟨["2-y"], none⟩), ("b", ⟨[], some ["1-z"]⟩)])
    [⟨"a", 5, ["1-x"]⟩, ⟨"a", 7, ["1-x", "2-y"]⟩, ⟨"b", 6, ["1-z"]⟩]
    [("a", ⟨["2-y"], none⟩), ("b", ⟨[], some ["1-z"]⟩)] rfl).trans (by rfl)

theorem mem_pairsOf_sortChanges (cs : List ChangeEvent) (d r : String) :
    (d, r) ∈ pairsOf (sortChanges cs) ↔ (d, r) ∈ pairsOf cs := by
  unfold pairsOf
  constructor
  · intro h
    obtain ⟨ev, hev, hm⟩ := List.mem_flatMap.1 h
    exact List.mem_flatMap.2 ⟨ev, (sortChanges_perm cs).subset hev, hm⟩
  · intro h
    obtain ⟨ev, hev, hm⟩ := List.mem_flatMap.1 h
    exact List.mem_flatMap.2 ⟨ev, ((sortChanges_perm cs).mem_iff).2 hev, hm⟩

/-- C8: a successfully processed non-empty batch issues exactly one
revision-diff call; the single request is the `docid_revs` mapping of
the whole batch, which covers it completely after deduplication: a
revision is under a doc id in the request exactly when the batch
reports that `(docId, revision)` pair somewhere. -/
theorem processBatch_single_diff_call (rd : RevsDiffFn) (cs : List ChangeEvent)
    (resp : List (String × DiffContent)) (hne : cs ≠ [])
    (hok : rd (find_docid_revs (sortChanges cs)) = .ok resp) :
    ((processBatch rd cs).1.countP
        (fun ev => match ev with | .diff _ => true | _ => false)) = 1 ∧
    (∀ req, Ev.diff req ∈ (processBatch rd cs).1
        → req = find_docid_revs (sortChanges cs)) ∧
    (∀ d r, (d, r) ∈ pairsOf cs
        ↔ r ∈ lookupRevs (find_docid_revs (sortChanges cs)) d) := by
  obtain ⟨s, hs⟩ := reportSeqOf_isSome cs hne
  have hpb := processBatch_ok_eq rd cs resp hne hok s hs
  rw [hpb]
  refine ⟨rfl, ?_, ?_⟩
  · intro req hreq
    simp at hreq
    exact hreq
  · intro d r
    rw [mem_lookupRevs_find_docid_revs, mem_pairsOf_sortChanges]

theorem processBatch_single_diff_call_witness :
    ((processBatch (fun _ => Except.ok [])
        [⟨"a", 5, ["1-x"]⟩, ⟨"a", 7, ["1-x", "2-y"]⟩, ⟨"b", 6, ["1-z"]⟩]).1.countP
        (fun ev => match ev with | .diff _ => true | _ => false)) = 1 ∧
    (∀ req, Ev.diff req ∈ (processBatch (fun _ => Except.ok [])
        [⟨"a", 5, ["1-x"]⟩, ⟨"a", 7, ["1-x", "2-y"]⟩, ⟨"b", 6, ["1-z"]⟩]).1
        → req = find_docid_revs (sortChanges
            [⟨"a", 5, ["1-x"]⟩, ⟨"a", 7, ["1-x", "2-y"]⟩, ⟨"b", 6, ["1-z"]⟩])) ∧
    (∀ d r, (d, r) ∈ pairsOf
        [⟨"a", 5, ["1-x"]⟩, ⟨"a", 7, ["1-x", "2-y"]⟩, ⟨"b", 6, ["1-z"]⟩]
        ↔ r ∈ lookupRevs (find_docid_revs (sortChanges
            [⟨"a", 5, ["1-x"]⟩, ⟨"a", 7, ["1-x", "2-y"]⟩, ⟨"b", 6, ["1-z"]⟩])) d) :=
  processBatch_single_diff_call (fun _ => Except.ok [])
    [⟨"a", 5, ["1-x"]⟩, ⟨"a", 7, ["1-x", "2-y"]⟩, ⟨"b", 6, ["1-z"]⟩]
    [] (by decide) rfl

/-- C9 counterexample: a diff response naming a doc id that is not in
the request is not rejected: on the empty request (so no doc id was
requested at all) a response naming `ghost` makes `find_missing_revs`
succeed with `ghost` copied into its result, instead of surfacing a
protocol failure as the claim states. -/
theorem find_missing_revs_unrequested_cex :
    find_missing_revs (fun _ => Except.ok [("ghost", ⟨["1-g"], none⟩)]) []
      = Except.ok [("ghost", (["1-g"], []))] ∧
    lookupRevs (find_docid_revs []) "ghost" = [] :=
  ⟨rfl, rfl⟩

/-- C9 amended: `find_missing_revs` performs no validation of the
response keys: every entry of a successful response, requested or not,
is translated verbatim into the result, and only an error raised by the
`revs_diff` call itself propagates as a failure. -/
theorem find_missing_revs_no_key_validation (rd : RevsDiffFn)
    (cs : List ChangeEvent) (resp : List (String × DiffContent))
    (hok : rd (find_docid_revs cs) = .ok resp) (d : String) (c : DiffContent)
    (hmem : (d, c) ∈ resp) :
    ∃ out, find_missing_revs rd cs = .ok out ∧
      (d, (c.missing, c.possible_ancestors.getD [])) ∈ out := by
  refine ⟨resp.map (fun p => (p.1, (p.2.missing, p.2.possible_ancestors.getD []))),
    ?_, ?_⟩
  · unfold find_missing_revs
    rw [hok]
  · exact List.mem_map.2 ⟨(d, c), hmem, rfl⟩

theorem find_missing_revs_no_key_validation_witness :
    ∃ out, find_missing_revs (fun _ => Except.ok [("ghost", ⟨["1-g"], none⟩)])
        [⟨"a", 1, ["1-x"]⟩] = .ok out ∧
      ("ghost", (["1-g"], [])) ∈ out :=
  find_missing_revs_no_key_validation
    (fun _ => Except.ok [("ghost", ⟨["1-g"], none⟩)])
    [⟨"a", 1, ["1-x"]⟩] [("ghost", ⟨["1-g"], none⟩)] rfl
    "ghost" ⟨["1-g"], none⟩ (by decide)

theorem isHexDigit_hexDigit : ∀ n, n < 16 → isHexDigit (hexDigit n) = true := by
  decide

/-- C10: the worker id computed at construction from the four
`os.urandom(4)` bytes is their hex encoding: an 8-character string of
lowercase hexadecimal digits; the `id` and `rep_id` properties are plain
reads of fields assigned once in `__init__` and reassigned by no method
of the class, so the embedded worker state is immutable and both
properties return these same values for the worker's whole lifetime,
however many batches the loop processes. -/
theorem worker_id_hex8 (rep_id : String) (urandom4 : List Nat)
    (batch_size max_conns : Nat) (h4 : urandom4.length = 4)
    (hb : ∀ b ∈ urandom4, b < 256) :
    (ReplicationWorker.init rep_id urandom4 batch_size max_conns).id
      = hexlify urandom4 ∧
    (ReplicationWorker.init rep_id urandom4 batch_size max_conns).id.length = 8 ∧
    (∀ c ∈ (ReplicationWorker.init rep_id urandom4 batch_size max_conns).id.data,
        isHexDigit c = true) ∧
    (ReplicationWorker.init rep_id urandom4 batch_size max_conns).rep_id
      = rep_id := by
  obtain ⟨a, b, c, d, rfl⟩ : ∃ a b c d, urandom4 = [a, b, c, d] := by
    match urandom4, h4 with
    | [a, b, c, d], _ => exact ⟨a, b, c, d, rfl⟩
  have hdiv : ∀ x : Nat, x < 256 → x / 16 < 16 := by
    intro x hx
    omega
  have hmod : ∀ x : Nat, x % 16 < 16 := by
    intro x
    omega
  refine ⟨rfl, rfl, ?_, rfl⟩
  intro ch hch
  have ha := hb a (by simp)
  have hb' := hb b (by simp)
  have hc := hb c (by simp)
  have hd := hb d (by simp)
  simp only [ReplicationWorker.init, ReplicationWorker.id, hexlify,
    List.flatMap_cons, List.flatMap_nil, List.append_nil, List.cons_append,
    List.nil_append, List.mem_cons, List.not_mem_nil, or_false] at hch
  rcases hch with rfl | rfl | rfl | rfl | rfl | rfl | rfl | rfl
  · exact isHexDigit_hexDigit _ (hdiv a ha)
  · exact isHexDigit_hexDigit _ (hmod a)
  · exact isHexDigit_hexDigit _ (hdiv b hb')
  · exact isHexDigit_hexDigit _ (hmod b)
  · exact isHexDigit_hexDigit _ (hdiv c hc)
  · exact isHexDigit_hexDigit _ (hmod c)
  · exact isHexDigit_hexDigit _ (hdiv d hd)
  · exact isHexDigit_hexDigit _ (hmod d)

theorem worker_id_hex8_witness :
    (ReplicationWorker.init "rep" [0, 255, 16, 1] 100 4).id
      = hexlify [0, 255, 16, 1] ∧
    (ReplicationWorker.init "rep" [0, 255, 16, 1] 100 4).id.length = 8 ∧
    (∀ c ∈ (ReplicationWorker.init "rep" [0, 255, 16, 1] 100 4).id.data,
        isHexDigit c = true) ∧
    (ReplicationWorker.init "rep" [0, 255, 16, 1] 100 4).rep_id = "rep" :=
  worker_id_hex8 "rep" [0, 255, 16, 1] 100 4 (by decide) (by decide)
